import Mathlib

/-!
Shallow embedding of `template/cordova/lib/AppxManifest.js` (cordova-windows).

An elementtree XML element is modelled as a tag, an ordered attribute list
(JS objects keep insertion order) and an ordered child list.  The module's
capability-normalization passes, serialization entry point, manifest cache,
change demultiplexer, dependency writer and the identity/application setters
are translated below; theorems about the frozen claims follow the
definitions.
-/

/-- An elementtree element: tag, attributes (insertion-ordered), children. -/
inductive XElem : Type where
  | mk : String → List (String × String) → List XElem → XElem

def XElem.tag : XElem → String
  | .mk t _ _ => t

def XElem.attrib : XElem → List (String × String)
  | .mk _ a _ => a

def XElem.children : XElem → List XElem
  | .mk _ _ c => c

def XElem.setTag : XElem → String → XElem
  | .mk _ a c, t => .mk t a c

def XElem.setChildren : XElem → List XElem → XElem
  | .mk t a _, c => .mk t a c

/-- JS attribute read `el.attrib[key]` (`none` when the key is absent). -/
def lookupAttr (attrib : List (String × String)) (key : String) : Option String :=
  (attrib.find? (fun p => p.1 = key)).map (fun p => p.2)

/-- JS attribute write `el.attrib[key] = v`: updates in place, or appends a
new key at the end (JS object key-insertion order). -/
def setAttr : List (String × String) → String → String → List (String × String)
  | [], key, v => [(key, v)]
  | (k, w) :: rest, key, v =>
    if k = key then (key, v) :: rest else (k, w) :: setAttr rest key v

/-- Reads `el.attrib.Name` of a capability element. -/
def XElem.nameAttr (e : XElem) : Option String := lookupAttr e.attrib "Name"

/-- The document wrapper (`this.doc`); `root` is the `Package` element. -/
structure XDoc : Type where
  root : XElem

/-- The `CAPS_NEEDING_UAPNS` constant from AppxManifest.js. -/
def CAPS_NEEDING_UAPNS : List String :=
  ["documentsLibrary", "picturesLibrary", "videosLibrary",
   "musicLibrary", "enterpriseAuthentication", "sharedUserCertificates",
   "removableStorage", "appointments", "contacts", "userAccountInformation",
   "phoneCall", "blockedChatMessages", "objects3D"]

/-- Tests `el.tag.indexOf('uap:') === 0`: the tag begins with the four characters
of the uap namespace marker. -/
def startsWithUap (s : String) : Bool :=
  decide (s.toList.take 4 = ['u', 'a', 'p', ':'])

/-- Tests `CAPS_NEEDING_UAPNS.indexOf(el.attrib.Name) > -1` (an absent `Name`
attribute is `undefined`, which is never found in the list). -/
def capNeedsUapNs : Option String → Bool
  | some n => CAPS_NEEDING_UAPNS.contains n
  | none => false

/-- The pass `ensureUapPrefixedCapabilities`, acting on the child list of the
`Capabilities` element: rewrite the tag of every child whose `Name` is in
`CAPS_NEEDING_UAPNS` and whose tag does not already begin with the uap
marker. -/
def ensureUapPrefixedCapabilities (capabilities : List XElem) : List XElem :=
  capabilities.map (fun el =>
    if capNeedsUapNs el.nameAttr ∧ ¬ startsWithUap el.tag then
      el.setTag ("uap:" ++ el.tag)
    else el)

/-- Accumulator loop of `ensureUniqueCapabilities`: `seen` is the
`uniqueCapabilities` array of `Name` values; later children whose `Name` was
already seen are removed (elementtree's `remove` rebuilds the child array
with `filter`, so the snapshot being iterated is unaffected and every
duplicate is visited). -/
def uniqueCapsAux : List (Option String) → List XElem → List XElem
  | _, [] => []
  | seen, el :: rest =>
    if el.nameAttr ∈ seen then uniqueCapsAux seen rest
    else el :: uniqueCapsAux (seen ++ [el.nameAttr]) rest

/-- The pass `ensureUniqueCapabilities`, acting on the child list. -/
def ensureUniqueCapabilities (capabilities : List XElem) : List XElem :=
  uniqueCapsAux [] capabilities

/-- The helper `extractLocalName`: `tag.split(':').pop()`, i.e. the characters after
the last colon (the whole tag when it has no colon). -/
def extractLocalName (tag : String) : String :=
  String.mk ((tag.toList.reverse.takeWhile (fun c => c ≠ ':')).reverse)

def XElem.localName (e : XElem) : String := extractLocalName e.tag

/-- The local name as a character list; JS compares strings code unit by
code unit, which is lexicographic comparison of the character lists. -/
def XElem.localKey (e : XElem) : List Char := (extractLocalName e.tag).toList

/-- One insertion step of the sort in `sortCapabilities`.  The JS comparator
is `(a.localName > b.localName) ? 1 : -1`; V8 sorts with binary insertion
(TimSort), which places each element at the leftmost position where the
comparator is negative, i.e. before the first element whose local name is
greater than or equal to its own. -/
def insertSorted (el : XElem) : List XElem → List XElem
  | [] => [el]
  | x :: xs =>
    if el.localKey ≤ x.localKey then el :: x :: xs else x :: insertSorted el xs

/-- The pass `sortCapabilities`, acting on the child list: remove all children and
re-append them ordered by local name. -/
def sortCapabilities (capabilities : List XElem) : List XElem :=
  capabilities.foldl (fun acc el => insertSorted el acc) []

/-- The three write-time passes in the order `writeToString` runs them. -/
def normalizeCapabilities (capabilities : List XElem) : List XElem :=
  sortCapabilities (ensureUniqueCapabilities (ensureUapPrefixedCapabilities capabilities))

/-- Models `doc.find('.//Capabilities')`: first descendant (document order) of the
root whose tag is `Capabilities`. -/
def findCapabilitiesDesc : List XElem → Option XElem
  | [] => none
  | XElem.mk t a c :: rest =>
    if t = "Capabilities" then some (XElem.mk t a c)
    else
      match findCapabilitiesDesc c with
      | some m => some m
      | none => findCapabilitiesDesc rest

/-- In-place mutation of the element located by `doc.find('.//Capabilities')`:
replace the first descendant tagged `Capabilities` by its image under `f`.
`none` when no such element exists. -/
def updateCapabilitiesDesc (f : XElem → XElem) : List XElem → Option (List XElem)
  | [] => none
  | XElem.mk t a c :: rest =>
    if t = "Capabilities" then some (f (XElem.mk t a c) :: rest)
    else
      match updateCapabilitiesDesc f c with
      | some c2 => some (XElem.mk t a c2 :: rest)
      | none =>
        match updateCapabilitiesDesc f rest with
        | some rest2 => some (XElem.mk t a c :: rest2)
        | none => none

/-- The effect of `normalizeCapabilities` on the located element. -/
def normalizeCapsElem (e : XElem) : XElem :=
  e.setChildren (normalizeCapabilities e.children)

/-- Models `writeToString`: run the three capability passes against the live tree,
then serialize.  The serialized text is a function of the returned tree.
When the tree has no `Capabilities` element, `this.doc.find('.//Capabilities')`
is `null` and the first pass throws a TypeError dereferencing it. -/
def writeToString (doc : XDoc) : Except String XDoc :=
  match updateCapabilitiesDesc normalizeCapsElem doc.root.children with
  | none => Except.error "TypeError: Cannot read properties of null (reading getchildren)"
  | some cs => Except.ok (XDoc.mk (doc.root.setChildren cs))

/-- Models `this.doc.find('./Capabilities')`: first direct child of the root tagged
`Capabilities`. -/
def findCapabilitiesChild (l : List XElem) : Option XElem :=
  l.find? (fun e => e.tag = "Capabilities")

/-- Models `getCapabilities`: `[]` when the element is absent, otherwise one
`(type, name)` pair per child. -/
def getCapabilities (doc : XDoc) : List (String × Option String) :=
  match findCapabilitiesChild doc.root.children with
  | none => []
  | some capabilities => capabilities.children.map (fun element => (element.tag, element.nameAttr))

/-- Occurrences of `Name = n` among a child list. -/
def countByName (n : String) (l : List XElem) : Nat :=
  l.countP (fun e => e.nameAttr = some n)

/-- Count of the matches of `/\.\d/g` in a character list: a match consumes
a dot plus the following digit and scanning resumes after it. -/
def countDotDigit : List Char → Nat
  | c1 :: c2 :: rest =>
    if c1 = '.' ∧ c2.isDigit then countDotDigit rest + 1
    else countDotDigit (c2 :: rest)
  | _ => 0

/-- Appends `.0` to the version n times (the `while (numVersionComponents++ < 4)`
loop body). -/
def padZeroComponents : Nat → String → String
  | 0, v => v
  | n + 1, v => padZeroComponents n (v ++ ".0")

/-- Models `getIdentity().setVersion`: rejects an empty value, then pads with
trailing `.0` while the component estimate `version.match(/\.\d/g).length + 1`
is below four; a string with no `.digit` occurrence has a `null` match result
and is stored unchanged.  Returns the value stored into
`identity.attrib.Version`. -/
def Identity.setVersion (version : String) : Except String String :=
  if version = "" then
    Except.error "TypeError: Identity.Version attribute must be non-empty"
  else
    let m := countDotDigit version.toList
    if m = 0 then Except.ok version
    else Except.ok (padZeroComponents (3 - m) version)

/-- Dotted components of a character list (split on every dot). -/
def splitDots : List Char → List (List Char)
  | [] => [[]]
  | c :: rest =>
    if c = '.' then [] :: splitDots rest
    else
      match splitDots rest with
      | [] => [[c]]
      | g :: gs => (c :: g) :: gs

/-- Joins dotted components back together (inverse of `splitDots` for
dot-free components). -/
def joinDots : List (List Char) → List Char
  | [] => []
  | [g] => g
  | g :: gs => g ++ '.' :: joinDots gs

/-- A plugin change instruction; `target` selects the manifest, the payload
fields are opaque to `processChanges`. -/
structure Change (α : Type) : Type where
  target : String
  parent : α
  after : α
  xmls : α
  versions : α
  deviceTarget : α
  deriving DecidableEq

/-- The `MANIFEST` constant. -/
def MANIFEST : String := "package.windows10.appxmanifest"

/-- Models `demuxChangeWithSubsts`: retarget a generic change to the concrete
windows10 manifest, carrying the payload fields over. -/
def demuxChangeWithSubsts {α : Type} (change : Change α) : Change α :=
  { target := MANIFEST
    parent := change.parent
    after := change.after
    xmls := change.xmls
    versions := change.versions
    deviceTarget := change.deviceTarget }

/-- Loop body of `AppxManifest.processChanges`: pass non-generic changes
through, expand a generic change via `demuxChangeWithSubsts`
(`Array.prototype.concat` with a non-array argument appends one element). -/
def processChangesLoop {α : Type} (oldChanges : List (Change α)) : List (Change α) :=
  oldChanges.foldl
    (fun changes change =>
      if change.target ≠ "package.appxmanifest" then changes ++ [change]
      else changes ++ [demuxChangeWithSubsts change])
    []

/-- Models `AppxManifest.processChanges`. -/
def processChanges {α : Type} (changes : List (Change α)) : List (Change α) :=
  if changes.any (fun change => change.target = "package.appxmanifest") then
    processChangesLoop changes
  else changes

/-- The module-level `manifestCache` plus the allocation and parse history
needed to speak about reference identity: instances are numbered in creation
order and `parses` counts `parseElementtreeSync` calls. -/
structure CacheState : Type where
  cache : List (String × Nat)
  nextId : Nat
  parses : Nat

/-- Reads `manifestCache[fileName]`. -/
def lookupCache (cache : List (String × Nat)) (fileName : String) : Option Nat :=
  (cache.find? (fun p => p.1 = fileName)).map (fun p => p.2)

/-- Models `AppxManifest.get(fileName, ignoreCache)` against a file system `env`
(the parse result of each path, `none` when parsing throws).  A fresh
instance parses twice: once for the root-attribute check and once in the
`AppxManifest` constructor, which also validates the root tag. -/
def AppxManifest.get (env : String → Option XDoc) (fileName : String)
    (ignoreCache : Bool) (s : CacheState) : Except String (Nat × CacheState) :=
  match (if ignoreCache then none else lookupCache s.cache fileName) with
  | some cached => Except.ok (cached, s)
  | none =>
    match env fileName with
    | none => Except.error (fileName ++ ": parse error")
    | some doc =>
      if (doc.root.attrib.map Prod.fst).contains "xmlns:uap" then
        if doc.root.tag = "Package" then
          Except.ok (s.nextId,
            { cache := if ignoreCache then s.cache else (fileName, s.nextId) :: s.cache
              nextId := s.nextId + 1
              parses := s.parses + 2 })
        else Except.error (fileName ++ " has incorrect root node name (expected Package)")
      else Except.error "Windows 10 is only supported"

/-- Models `AppxManifest.purgeCache(cacheKeys)`: with no argument the whole cache is
replaced by a fresh object; otherwise the listed keys are deleted. -/
def AppxManifest.purgeCache (cacheKeys : Option (List String)) (s : CacheState) : CacheState :=
  match cacheKeys with
  | none => { s with cache := [] }
  | some keys => { s with cache := s.cache.filter (fun p => ¬ keys.contains p.1) }

/-- One call against the module API, for reasoning about call traces. -/
inductive Op : Type where
  | opGet : String → Bool → Op
  | opPurge : Option (List String) → Op

def Op.isPurge : Op → Bool
  | .opGet _ _ => false
  | .opPurge _ => true

/-- Execute one call: a throwing `get` leaves the cache untouched (the store
happens after all validation), a `purge` returns no instance. -/
def stepOp (env : String → Option XDoc) (s : CacheState) : Op → Option Nat × CacheState
  | .opGet fileName ignoreCache =>
    match AppxManifest.get env fileName ignoreCache s with
    | Except.ok (i, s2) => (some i, s2)
    | Except.error _ => (none, s)
  | .opPurge keys => (none, AppxManifest.purgeCache keys s)

/-- Execute a trace of calls, collecting the instance returned by each. -/
def runOps (env : String → Option XDoc) : CacheState → List Op → List (Option Nat) × CacheState
  | s, [] => ([], s)
  | s, op :: ops =>
    let r := stepOp env s op
    let rest := runOps env r.2 ops
    (r.1 :: rest.1, rest.2)

/-- The state at module load: empty cache, no instances, no parses. -/
def initState : CacheState := CacheState.mk [] 0 0

/-- Outcome of a manifest method in JS: the wrapped manifest (`this`, usable
for chaining) or `undefined`. -/
inductive JsRet : Type where
  | self : JsRet
  | undef : JsRet

/-- Models `this.doc.find('./Dependencies')`. -/
def findDependenciesChild (l : List XElem) : Option XElem :=
  l.find? (fun e => e.tag = "Dependencies")

/-- In-place mutation of the located (first) `Dependencies` child. -/
def updateFirstDependencies (f : XElem → XElem) : List XElem → List XElem
  | [] => []
  | e :: rest =>
    if e.tag = "Dependencies" then f e :: rest else e :: updateFirstDependencies f rest

/-- Models `new et.Element('TargetDeviceFamily', uapVersionInfo)`. -/
def mkTargetDeviceFamily (uapVersionInfo : List (String × String)) : XElem :=
  XElem.mk "TargetDeviceFamily" uapVersionInfo []

/-- Truthiness of `!dependencies || dependencies.length === 0`. -/
def depsFalsyOrEmpty {α : Type} : Option (List α) → Bool
  | none => true
  | some [] => true
  | some (_ :: _) => false

/-- Models the guarded clear `if (dependenciesElement.len() > 0)
dependenciesElement.clear()`: elementtree's `clear()` resets the child list
and the attribute map (it also nulls text and tail, which this model does
not carry). -/
def clearElement (e : XElem) : XElem :=
  if e.children.length > 0 then XElem.mk e.tag [] [] else e

/-- Models `AppxManifest.prototype.setDependencies`.  `this.doc` is an
elementtree `ElementTree`, which delegates `find` to the root but has no
`remove` or `append` method, so two branches throw: a falsy or empty
argument together with an existing `Dependencies` element reaches
`this.doc.remove(dependenciesElement)` and throws a TypeError before any
mutation, and a missing `Dependencies` element reaches
`this.doc.append(...)` and throws likewise (the freshly built element is
never attached).  Only the remaining path runs to completion: with an
existing element and a non-empty list, the element is cleared when it has
children and one `TargetDeviceFamily` child is appended per entry; the
function body ends without a `return`, so that call evaluates to
`undefined`.  (With an existing element, an `undefined` list is caught by
the falsy-removal branch, so `dependencies.forEach` is never reached there;
the branch is kept for exhaustiveness, with the clear applied before the
throw, matching the mutate-then-throw order.) -/
def setDependencies (dependencies : Option (List (List (String × String))))
    (doc : XDoc) : XDoc × Except String JsRet :=
  let depsEl := findDependenciesChild doc.root.children
  if depsFalsyOrEmpty dependencies ∧ depsEl.isSome then
    (doc, Except.error "TypeError: this.doc.remove is not a function")
  else
    match depsEl, dependencies with
    | none, _ => (doc, Except.error "TypeError: this.doc.append is not a function")
    | some _, none =>
      (XDoc.mk (doc.root.setChildren (updateFirstDependencies clearElement doc.root.children)),
       Except.error "TypeError: Cannot read properties of undefined (reading forEach)")
    | some _, some ds =>
      (XDoc.mk (doc.root.setChildren (updateFirstDependencies
          (fun e => e.setChildren (e.children ++ ds.map mkTargetDeviceFamily))
          (updateFirstDependencies clearElement doc.root.children))),
       Except.ok JsRet.undef)

/-- Models `getApplication().setStartPage`: a falsy page is replaced by the default
start page, the attribute is written, and the view is returned for
chaining; no input is rejected. -/
def Application.setStartPage (page : Option String) (application : XElem) :
    Except String (XElem × JsRet) :=
  let p :=
    match page with
    | none => "www/index.html"
    | some "" => "www/index.html"
    | some s => s
  Except.ok (XElem.mk application.tag (setAttr application.attrib "StartPage" p)
    application.children, JsRet.self)

theorem insertSorted_perm (el : XElem) (l : List XElem) :
    List.Perm (insertSorted el l) (el :: l) := by
  induction l with
  | nil => simp [insertSorted]
  | cons x xs ih =>
    simp only [insertSorted]
    split
    · exact List.Perm.refl _
    · exact (ih.cons x).trans (List.Perm.swap el x xs)

theorem mem_insertSorted {a el : XElem} {l : List XElem} (h : a ∈ insertSorted el l) :
    a = el ∨ a ∈ l := by
  have := (insertSorted_perm el l).mem_iff.mp h
  simpa using this

theorem pairwise_insertSorted (el : XElem) {l : List XElem}
    (h : l.Pairwise (fun a b => a.localKey ≤ b.localKey)) :
    (insertSorted el l).Pairwise (fun a b => a.localKey ≤ b.localKey) := by
  induction l with
  | nil => simp [insertSorted]
  | cons x xs ih =>
    rw [List.pairwise_cons] at h
    simp only [insertSorted]
    split
    · rename_i hle
      refine List.Pairwise.cons ?_ (List.Pairwise.cons h.1 h.2)
      intro b hb
      rcases List.mem_cons.mp hb with rfl | hb2
      · exact hle
      · exact le_trans hle (h.1 b hb2)
    · rename_i hnle
      have hxel : x.localKey ≤ el.localKey := le_of_not_le hnle
      refine List.Pairwise.cons ?_ (ih h.2)
      intro b hb
      rcases mem_insertSorted hb with rfl | hb2
      · exact hxel
      · exact h.1 b hb2

theorem foldl_insertSorted_pairwise (l : List XElem) :
    ∀ acc : List XElem, acc.Pairwise (fun a b => a.localKey ≤ b.localKey) →
      (List.foldl (fun acc el => insertSorted el acc) acc l).Pairwise
        (fun a b => a.localKey ≤ b.localKey) := by
  induction l with
  | nil => intro acc hacc; simpa using hacc
  | cons x xs ih =>
    intro acc hacc
    simp only [List.foldl_cons]
    exact ih _ (pairwise_insertSorted x hacc)

theorem foldl_insertSorted_perm (l : List XElem) :
    ∀ acc : List XElem,
      List.Perm (List.foldl (fun acc el => insertSorted el acc) acc l) (acc ++ l) := by
  induction l with
  | nil => intro acc; simp
  | cons x xs ih =>
    intro acc
    simp only [List.foldl_cons]
    refine (ih (insertSorted x acc)).trans ?_
    refine List.Perm.trans (List.Perm.append_right xs (insertSorted_perm x acc)) ?_
    exact (List.perm_middle).symm

theorem sortCapabilities_perm (l : List XElem) : List.Perm (sortCapabilities l) l := by
  simpa using foldl_insertSorted_perm l []

/-- C7: after the sort pass the children of the `Capabilities` element are in
ascending order of their local name (the tag with any namespace part up to
and including the last colon stripped), under the code-unit string order. -/
theorem sortCapabilities_sorted_by_localName (capabilities : List XElem) :
    (sortCapabilities capabilities).Pairwise (fun a b => a.localKey ≤ b.localKey) := by
  exact foldl_insertSorted_pairwise capabilities [] (by simp)

theorem insertSorted_append (el : XElem) {l : List XElem}
    (h : ∀ x ∈ l, x.localKey < el.localKey) : insertSorted el l = l ++ [el] := by
  induction l with
  | nil => simp [insertSorted]
  | cons x xs ih =>
    simp only [insertSorted]
    rw [if_neg (not_le_of_lt (h x (List.mem_cons_self x xs))),
      ih (fun y hy => h y (List.mem_cons_of_mem x hy))]
    simp

theorem foldl_insertSorted_of_sorted (l : List XElem) :
    ∀ acc : List XElem, (acc ++ l).Pairwise (fun a b => a.localKey < b.localKey) →
      List.foldl (fun acc el => insertSorted el acc) acc l = acc ++ l := by
  induction l with
  | nil => intro acc hacc; simp
  | cons x xs ih =>
    intro acc hacc
    simp only [List.foldl_cons]
    have hx : ∀ y ∈ acc, y.localKey < x.localKey := by
      intro y hy
      have := (List.pairwise_append.mp hacc).2.2
      exact this y hy x (List.mem_cons_self x xs)
    rw [insertSorted_append x hx]
    have hperm : acc ++ [x] ++ xs = acc ++ x :: xs := by simp
    rw [ih (acc ++ [x]) (by rw [hperm]; exact hacc)]
    simp

theorem sortCapabilities_of_sorted {l : List XElem}
    (h : l.Pairwise (fun a b => a.localKey < b.localKey)) : sortCapabilities l = l := by
  simpa using foldl_insertSorted_of_sorted l [] (by simpa using h)

theorem nameAttr_setTag (e : XElem) (t : String) : (e.setTag t).nameAttr = e.nameAttr := by
  rcases e with ⟨tg, a, c⟩
  rfl

theorem localName_setTag (e : XElem) (t : String) : (e.setTag t).localName = extractLocalName t := by
  rcases e with ⟨tg, a, c⟩
  rfl

theorem toList_append_str (s t : String) : (s ++ t).toList = s.toList ++ t.toList := by
  simp [String.toList]

theorem startsWithUap_append (t : String) : startsWithUap ("uap:" ++ t) = true := by
  simp [startsWithUap, toList_append_str]

theorem ensureUap_prefixed {l : List XElem} {e : XElem}
    (he : e ∈ ensureUapPrefixedCapabilities l)
    (hn : capNeedsUapNs e.nameAttr = true) : startsWithUap e.tag = true := by
  simp only [ensureUapPrefixedCapabilities, List.mem_map] at he
  obtain ⟨x, _, rfl⟩ := he
  by_cases hc : capNeedsUapNs x.nameAttr = true ∧ ¬ startsWithUap x.tag = true
  · rw [if_pos (by simpa using hc)]
    rw [if_pos (by simpa using hc)] at hn
    rcases x with ⟨tg, a, c⟩
    exact startsWithUap_append tg
  · rw [if_neg (by simpa using hc)]
    rw [if_neg (by simpa using hc)] at hn
    rcases not_and_or.mp hc with h1 | h2
    · exact absurd hn h1
    · simpa using h2

theorem ensureUap_noop {l : List XElem}
    (h : ∀ e ∈ l, capNeedsUapNs e.nameAttr = true → startsWithUap e.tag = true) :
    ensureUapPrefixedCapabilities l = l := by
  induction l with
  | nil => rfl
  | cons x xs ih =>
    simp only [ensureUapPrefixedCapabilities, List.map_cons] at *
    rw [if_neg, ih]
    · intro e he hne
      exact h e (List.mem_cons_of_mem x he) hne
    · rintro ⟨h1, h2⟩
      exact h2 (h x (List.mem_cons_self x xs) (by simpa using h1))

theorem mem_uniqueCapsAux : ∀ {seen : List (Option String)} {l : List XElem} {e : XElem},
    e ∈ uniqueCapsAux seen l → e ∈ l := by
  intro seen l
  induction l generalizing seen with
  | nil => intro e he; simp [uniqueCapsAux] at he
  | cons x xs ih =>
    intro e he
    simp only [uniqueCapsAux] at he
    split at he
    · exact List.mem_cons_of_mem x (ih he)
    · rcases List.mem_cons.mp he with h1 | h2
      · exact List.mem_cons.mpr (Or.inl h1)
      · exact List.mem_cons_of_mem x (ih h2)

theorem uniqueCapsAux_names : ∀ (l : List XElem) (seen : List (Option String)),
    (∀ e ∈ uniqueCapsAux seen l, e.nameAttr ∉ seen) ∧
      (uniqueCapsAux seen l).Pairwise (fun a b => a.nameAttr ≠ b.nameAttr) := by
  intro l
  induction l with
  | nil => intro seen; simp [uniqueCapsAux]
  | cons x xs ih =>
    intro seen
    simp only [uniqueCapsAux]
    split
    · exact ih seen
    · rename_i hx
      constructor
      · intro e he
        rcases List.mem_cons.mp he with rfl | h2
        · exact hx
        · have := (ih (seen ++ [x.nameAttr])).1 e h2
          intro hcon
          exact this (List.mem_append_left _ hcon)
      · refine List.Pairwise.cons ?_ (ih (seen ++ [x.nameAttr])).2
        intro b hb
        have := (ih (seen ++ [x.nameAttr])).1 b hb
        intro hcon
        exact this (List.mem_append_right _ (by simp [hcon]))

theorem uniqueCapsAux_noop : ∀ (l : List XElem) (seen : List (Option String)),
    (∀ e ∈ l, e.nameAttr ∉ seen) →
    l.Pairwise (fun a b => a.nameAttr ≠ b.nameAttr) →
    uniqueCapsAux seen l = l := by
  intro l
  induction l with
  | nil => intro seen _ _; rfl
  | cons x xs ih =>
    intro seen hseen hpw
    rw [List.pairwise_cons] at hpw
    simp only [uniqueCapsAux]
    rw [if_neg (hseen x (List.mem_cons_self x xs))]
    rw [ih (seen ++ [x.nameAttr]) ?_ hpw.2]
    intro e he
    intro hcon
    rcases List.mem_append.mp hcon with h1 | h2
    · exact hseen e (List.mem_cons_of_mem x he) h1
    · exact hpw.1 e he (List.mem_singleton.mp h2).symm

theorem ensureUnique_pairwise (l : List XElem) :
    (ensureUniqueCapabilities l).Pairwise (fun a b => a.nameAttr ≠ b.nameAttr) :=
  (uniqueCapsAux_names l []).2

theorem ensureUnique_noop {l : List XElem}
    (h : l.Pairwise (fun a b => a.nameAttr ≠ b.nameAttr)) :
    ensureUniqueCapabilities l = l :=
  uniqueCapsAux_noop l [] (by simp) h

theorem mem_ensureUnique {l : List XElem} {e : XElem}
    (h : e ∈ ensureUniqueCapabilities l) : e ∈ l :=
  mem_uniqueCapsAux h

/-- Two well-formed, distinct capability declarations sharing the tag
`Capability` (neither name needs the uap marker). -/
def capInternetClient : XElem := XElem.mk "Capability" [("Name", "internetClient")] []

def capPrivateNetwork : XElem :=
  XElem.mk "Capability" [("Name", "privateNetworkClientServer")] []

/-- C2 counterexample: on a `Capabilities` child list holding two distinct
declarations with equal local names, the comparator
`(a.localName > b.localName) ? 1 : -1` answers "before" for both orders, so
each run of the three passes swaps the pair: running them twice does not
equal running them once. -/
theorem normalizeCapabilities_not_idempotent :
    normalizeCapabilities (normalizeCapabilities [capInternetClient, capPrivateNetwork]) ≠
      normalizeCapabilities [capInternetClient, capPrivateNetwork] := by
  intro h
  have h2 := congrArg (List.map XElem.attrib) h
  revert h2
  decide

/-- C2, amended: the three passes run twice equal the passes run once for
every `Capabilities` child list on which the surviving children carry
pairwise distinct local names (the counterexample shows idempotence fails
when two survivors share a local name). -/
theorem normalizeCapabilities_idempotent_of_distinct
    (l : List XElem)
    (h : (ensureUniqueCapabilities (ensureUapPrefixedCapabilities l)).Pairwise
      (fun a b => a.localKey ≠ b.localKey)) :
    normalizeCapabilities (normalizeCapabilities l) = normalizeCapabilities l := by
  have hperm := sortCapabilities_perm (ensureUniqueCapabilities (ensureUapPrefixedCapabilities l))
  have hA : ensureUapPrefixedCapabilities (normalizeCapabilities l) = normalizeCapabilities l := by
    apply ensureUap_noop
    intro e he hne
    have he2 : e ∈ ensureUniqueCapabilities (ensureUapPrefixedCapabilities l) :=
      hperm.mem_iff.mp he
    exact ensureUap_prefixed (mem_ensureUnique he2) hne
  have hB : ensureUniqueCapabilities (normalizeCapabilities l) = normalizeCapabilities l := by
    apply ensureUnique_noop
    have hnames := ensureUnique_pairwise (ensureUapPrefixedCapabilities l)
    exact ((hperm.pairwise_iff (fun hab => hab ∘ Eq.symm)).mpr hnames)
  have hC : sortCapabilities (normalizeCapabilities l) = normalizeCapabilities l := by
    apply sortCapabilities_of_sorted
    have hle := sortCapabilities_sorted_by_localName
      (ensureUniqueCapabilities (ensureUapPrefixedCapabilities l))
    have hne : (normalizeCapabilities l).Pairwise (fun a b => a.localKey ≠ b.localKey) :=
      (hperm.pairwise_iff (fun hab => hab ∘ Eq.symm)).mpr h
    have hand := hle.and hne
    exact hand.imp (fun hab => lt_of_le_of_ne hab.1 hab.2)
  show sortCapabilities (ensureUniqueCapabilities
    (ensureUapPrefixedCapabilities (normalizeCapabilities l))) = normalizeCapabilities l
  rw [hA, hB, hC]

/-- Concrete input for the amended-C2 witness: two declarations with
distinct local names. -/
def capWitnessList : List XElem :=
  [XElem.mk "DeviceCapability" [("Name", "location")] [], capInternetClient]

theorem normalizeCapabilities_idempotent_witness :
    normalizeCapabilities (normalizeCapabilities capWitnessList) =
      normalizeCapabilities capWitnessList :=
  normalizeCapabilities_idempotent_of_distinct capWitnessList (by decide)

theorem children_setChildren (e : XElem) (c : List XElem) : (e.setChildren c).children = c := by
  rcases e with ⟨t, a, ch⟩
  rfl

theorem tag_setChildren (e : XElem) (c : List XElem) : (e.setChildren c).tag = e.tag := by
  rcases e with ⟨t, a, ch⟩
  rfl

theorem nameAttr_uapNorm (el : XElem) :
    (if capNeedsUapNs el.nameAttr ∧ ¬ startsWithUap el.tag then
      el.setTag ("uap:" ++ el.tag) else el).nameAttr = el.nameAttr := by
  split
  · exact nameAttr_setTag el _
  · rfl

theorem countByName_cons (n : String) (e : XElem) (l : List XElem) :
    countByName n (e :: l) = countByName n l + (if e.nameAttr = some n then 1 else 0) := by
  simp [countByName, List.countP_cons]

theorem countByName_ensureUap (n : String) (l : List XElem) :
    countByName n (ensureUapPrefixedCapabilities l) = countByName n l := by
  unfold countByName ensureUapPrefixedCapabilities
  rw [List.countP_map]
  apply List.countP_congr
  intro el _
  simp only [Function.comp_apply]
  rw [nameAttr_uapNorm el]

theorem uniqueCapsAux_countByName (n : String) : ∀ (l : List XElem) (seen : List (Option String)),
    countByName n (uniqueCapsAux seen l) =
      if some n ∈ seen then 0 else min 1 (countByName n l) := by
  intro l
  induction l with
  | nil => intro seen; simp [uniqueCapsAux, countByName]
  | cons el rest ih =>
    intro seen
    simp only [uniqueCapsAux]
    split
    · rename_i hel
      rw [ih seen]
      by_cases hseen : some n ∈ seen
      · rw [if_pos hseen, if_pos hseen]
      · rw [if_neg hseen, if_neg hseen, countByName_cons]
        have hn : ¬ el.nameAttr = some n := fun hcon => hseen (hcon ▸ hel)
        rw [if_neg hn]
        omega
    · rename_i hel
      rw [countByName_cons, ih (seen ++ [el.nameAttr])]
      by_cases hn : el.nameAttr = some n
      · have hseen : some n ∉ seen := fun hcon => hel (hn ▸ hcon)
        rw [if_pos (List.mem_append_right _ (by simp [hn])), if_neg hseen, if_pos hn,
          countByName_cons, if_pos hn]
        omega
      · by_cases hseen : some n ∈ seen
        · rw [if_pos (List.mem_append_left _ hseen), if_pos hseen, if_neg hn]
        · have hnotin : some n ∉ seen ++ [el.nameAttr] := by
            intro hcon
            rcases List.mem_append.mp hcon with h1 | h2
            · exact hseen h1
            · exact hn (List.mem_singleton.mp h2).symm
          rw [if_neg hnotin, if_neg hseen, if_neg hn, countByName_cons, if_neg hn]
          omega

theorem countByName_sort (n : String) (l : List XElem) :
    countByName n (sortCapabilities l) = countByName n l :=
  (sortCapabilities_perm l).countP_eq _

theorem countByName_normalize {n : String} {l : List XElem} (h : 1 ≤ countByName n l) :
    countByName n (normalizeCapabilities l) = 1 := by
  unfold normalizeCapabilities
  rw [countByName_sort]
  show countByName n (uniqueCapsAux [] (ensureUapPrefixedCapabilities l)) = 1
  rw [uniqueCapsAux_countByName, if_neg (by simp), countByName_ensureUap]
  omega

theorem updateCapabilitiesDesc_none (f : XElem → XElem) :
    ∀ l : List XElem, findCapabilitiesDesc l = none → updateCapabilitiesDesc f l = none
  | [] => fun _ => by simp [updateCapabilitiesDesc]
  | XElem.mk t a c :: rest => fun h => by
    simp only [findCapabilitiesDesc] at h
    simp only [updateCapabilitiesDesc]
    by_cases ht : t = "Capabilities"
    · rw [if_pos ht] at h
      exact absurd h (by simp)
    · rw [if_neg ht] at h
      rw [if_neg ht]
      cases hc : findCapabilitiesDesc c with
      | some m => rw [hc] at h; simp at h
      | none =>
        rw [hc] at h
        simp only at h
        rw [updateCapabilitiesDesc_none f c hc]
        rw [updateCapabilitiesDesc_none f rest h]

theorem updateCapabilitiesDesc_some (f : XElem → XElem) (hf : ∀ e, (f e).tag = e.tag) :
    ∀ (l : List XElem) (m : XElem), findCapabilitiesDesc l = some m →
      ∃ l2, updateCapabilitiesDesc f l = some l2 ∧ findCapabilitiesDesc l2 = some (f m)
  | [], m => fun h => by simp [findCapabilitiesDesc] at h
  | XElem.mk t a c :: rest, m => fun h => by
    simp only [findCapabilitiesDesc] at h
    simp only [updateCapabilitiesDesc]
    by_cases ht : t = "Capabilities"
    · rw [if_pos ht] at h
      rw [if_pos ht]
      have hm : XElem.mk t a c = m := by simpa using h
      refine ⟨f (XElem.mk t a c) :: rest, rfl, ?_⟩
      have htag : (f (XElem.mk t a c)).tag = "Capabilities" := by
        rw [hf (XElem.mk t a c)]
        simpa [XElem.tag] using ht
      rcases hfm : f (XElem.mk t a c) with ⟨t2, a2, c2⟩
      rw [hfm] at htag
      simp only [XElem.tag] at htag
      simp only [findCapabilitiesDesc, htag, if_pos]
      rw [← htag, ← hm, hfm]
    · rw [if_neg ht] at h
      rw [if_neg ht]
      cases hc : findCapabilitiesDesc c with
      | some mc =>
        rw [hc] at h
        simp only at h
        have hm : mc = m := by simpa using h
        obtain ⟨c2, hup, hfind⟩ := updateCapabilitiesDesc_some f hf c mc hc
        rw [hup]
        refine ⟨XElem.mk t a c2 :: rest, rfl, ?_⟩
        simp only [findCapabilitiesDesc]
        rw [if_neg ht, hfind, hm]
      | none =>
        rw [hc] at h
        simp only at h
        rw [updateCapabilitiesDesc_none f c hc]
        obtain ⟨rest2, hup, hfind⟩ := updateCapabilitiesDesc_some f hf rest m h
        rw [hup]
        refine ⟨XElem.mk t a c :: rest2, rfl, ?_⟩
        simp only [findCapabilitiesDesc]
        rw [if_neg ht, hc, hfind]

theorem tag_normalizeCapsElem (e : XElem) : (normalizeCapsElem e).tag = e.tag :=
  tag_setChildren e _

theorem children_normalizeCapsElem (e : XElem) :
    (normalizeCapsElem e).children = normalizeCapabilities e.children :=
  children_setChildren e _

/-- C1: for every manifest document with a `Capabilities` element, and every
`Name` carried by at least one capability child (however many duplicates were
appended), `writeToString` succeeds and its output holds exactly one
capability declaration with that `Name`. -/
theorem writeToString_collapses_duplicate_capabilities
    (doc : XDoc) (cap : XElem) (n : String)
    (hfind : findCapabilitiesDesc doc.root.children = some cap)
    (hcount : 1 ≤ countByName n cap.children) :
    ∃ doc2 cap2, writeToString doc = Except.ok doc2 ∧
      findCapabilitiesDesc doc2.root.children = some cap2 ∧
      countByName n cap2.children = 1 := by
  obtain ⟨l2, hup, hfind2⟩ := updateCapabilitiesDesc_some normalizeCapsElem
    (fun e => tag_setChildren e _) doc.root.children cap hfind
  refine ⟨XDoc.mk (doc.root.setChildren l2), normalizeCapsElem cap, ?_, ?_, ?_⟩
  · unfold writeToString
    rw [hup]
  · show findCapabilitiesDesc (doc.root.setChildren l2).children = _
    rw [children_setChildren]
    exact hfind2
  · rw [children_normalizeCapsElem]
    exact countByName_normalize hcount

/-- Concrete document for the C1 witness: three duplicate `musicLibrary`
declarations under `Capabilities`. -/
def docDupCaps : XDoc :=
  XDoc.mk (XElem.mk "Package" [("xmlns:uap", "http://uap")]
    [XElem.mk "Capabilities" []
      [XElem.mk "Capability" [("Name", "musicLibrary")] [],
       XElem.mk "Capability" [("Name", "musicLibrary")] [],
       XElem.mk "uap:Capability" [("Name", "musicLibrary")] []]])

theorem writeToString_collapses_duplicate_capabilities_witness :
    ∃ doc2 cap2, writeToString docDupCaps = Except.ok doc2 ∧
      findCapabilitiesDesc doc2.root.children = some cap2 ∧
      countByName "musicLibrary" cap2.children = 1 :=
  writeToString_collapses_duplicate_capabilities docDupCaps
    (XElem.mk "Capabilities" []
      [XElem.mk "Capability" [("Name", "musicLibrary")] [],
       XElem.mk "Capability" [("Name", "musicLibrary")] [],
       XElem.mk "uap:Capability" [("Name", "musicLibrary")] []])
    "musicLibrary"
    (by simp [docDupCaps, findCapabilitiesDesc, XElem.children, XElem.tag])
    (by decide)

theorem findChild_none_of_findDesc_none :
    ∀ {l : List XElem}, findCapabilitiesDesc l = none → findCapabilitiesChild l = none := by
  intro l
  induction l with
  | nil => intro _; rfl
  | cons e rest ih =>
    intro h
    rcases e with ⟨t, a, c⟩
    simp only [findCapabilitiesDesc] at h
    by_cases ht : t = "Capabilities"
    · rw [if_pos ht] at h
      exact absurd h (by simp)
    · rw [if_neg ht] at h
      cases hc : findCapabilitiesDesc c with
      | some m => rw [hc] at h; simp at h
      | none =>
        rw [hc] at h
        simp only at h
        simp only [findCapabilitiesChild, List.find?]
        rw [show (decide ((XElem.mk t a c).tag = "Capabilities")) = false by
          simp [XElem.tag, ht]]
        exact ih h

/-- C8: on a document whose tree has no `Capabilities` element anywhere,
`writeToString` (hence `write`) throws instead of producing output, while
`getCapabilities` on the same document returns the empty list. -/
theorem writeToString_errors_without_capabilities (doc : XDoc)
    (h : findCapabilitiesDesc doc.root.children = none) :
    writeToString doc =
        Except.error "TypeError: Cannot read properties of null (reading getchildren)" ∧
      getCapabilities doc = [] := by
  constructor
  · unfold writeToString
    rw [updateCapabilitiesDesc_none _ _ h]
  · unfold getCapabilities
    rw [findChild_none_of_findDesc_none h]

/-- Concrete document for the C8 witness: a manifest with no `Capabilities`
element at all. -/
def docNoCaps : XDoc :=
  XDoc.mk (XElem.mk "Package" [("xmlns:uap", "http://uap")]
    [XElem.mk "Identity" [("Name", "app"), ("Version", "1.0.0.0")] []])

theorem writeToString_errors_without_capabilities_witness :
    writeToString docNoCaps =
        Except.error "TypeError: Cannot read properties of null (reading getchildren)" ∧
      getCapabilities docNoCaps = [] :=
  writeToString_errors_without_capabilities docNoCaps
    (by simp [docNoCaps, findCapabilitiesDesc, XElem.children, XElem.tag])

theorem digit_ne_dot {c : Char} (h : c.isDigit = true) : c ≠ '.' := by
  intro hcon
  rw [hcon] at h
  exact absurd h (by decide)

theorem countDotDigit_cons_ne {c : Char} (l : List Char) (hc : c ≠ '.') :
    countDotDigit (c :: l) = countDotDigit l := by
  cases l with
  | nil => simp [countDotDigit]
  | cons c2 rest => simp [countDotDigit, hc]

theorem countDotDigit_digits_first (g : List Char) (l : List Char)
    (h : ∀ c ∈ g, c ≠ '.') : countDotDigit (g ++ l) = countDotDigit l := by
  induction g with
  | nil => simp
  | cons c g2 ih =>
    rw [List.cons_append, countDotDigit_cons_ne _ (h c (List.mem_cons_self c g2))]
    exact ih (fun c2 hc2 => h c2 (List.mem_cons_of_mem c hc2))

theorem joinDots_cons₂ (g : List Char) (gs : List (List Char)) (h : gs ≠ []) :
    joinDots (g :: gs) = g ++ '.' :: joinDots gs := by
  cases gs with
  | nil => exact absurd rfl h
  | cons g2 gs2 => rfl

theorem countDotDigit_joinDots : ∀ gs : List (List Char), gs ≠ [] →
    (∀ g ∈ gs, g ≠ [] ∧ ∀ c ∈ g, c.isDigit = true) →
    countDotDigit (joinDots gs) + 1 = gs.length := by
  intro gs
  induction gs with
  | nil => intro h; exact absurd rfl h
  | cons g gs2 ih =>
    intro _ hwf
    cases gs2 with
    | nil =>
      show countDotDigit (joinDots [g]) + 1 = 1
      have : countDotDigit g = 0 := by
        have := countDotDigit_digits_first g []
          (fun c hc => digit_ne_dot ((hwf g (by simp)).2 c hc))
        simpa using this
      simpa [joinDots] using this
    | cons g2 gs3 =>
      rw [joinDots_cons₂ g (g2 :: gs3) (by simp)]
      rw [countDotDigit_digits_first g _
        (fun c hc => digit_ne_dot ((hwf g (by simp)).2 c hc))]
      have hg2 := hwf g2 (by simp)
      have hcount : countDotDigit ('.' :: joinDots (g2 :: gs3)) =
          countDotDigit (joinDots (g2 :: gs3)) + 1 := by
        rcases g2 with _ | ⟨d, ds⟩
        · exact absurd rfl hg2.1
        · have hdd : d.isDigit = true := hg2.2 d (by simp)
          have hjoin : ∃ tail, joinDots ((d :: ds) :: gs3) = d :: (ds ++ tail) := by
            cases gs3 with
            | nil => exact ⟨[], by simp [joinDots]⟩
            | cons g4 gs4 =>
              refine ⟨'.' :: joinDots (g4 :: gs4), ?_⟩
              rw [joinDots_cons₂ (d :: ds) (g4 :: gs4) (by simp)]
              simp
          obtain ⟨tail, htail⟩ := hjoin
          rw [htail]
          rw [countDotDigit_cons_ne (ds ++ tail) (digit_ne_dot hdd)]
          simp [countDotDigit, hdd]
      rw [hcount]
      have := ih (by simp) (fun g4 hg4 => hwf g4 (List.mem_cons_of_mem g hg4))
      simp only [List.length_cons] at *
      omega

theorem splitDots_dotFree (g : List Char) (h : ∀ c ∈ g, c ≠ '.') : splitDots g = [g] := by
  induction g with
  | nil => rfl
  | cons c g2 ih =>
    simp only [splitDots]
    rw [if_neg (by simpa using h c (List.mem_cons_self c g2))]
    rw [ih (fun c2 hc2 => h c2 (List.mem_cons_of_mem c hc2))]

theorem splitDots_append_dot (g : List Char) (l : List Char) (h : ∀ c ∈ g, c ≠ '.') :
    splitDots (g ++ '.' :: l) = g :: splitDots l := by
  induction g with
  | nil => simp [splitDots]
  | cons c g2 ih =>
    rw [List.cons_append]
    simp only [splitDots]
    rw [if_neg (by simpa using h c (List.mem_cons_self c g2))]
    rw [ih (fun c2 hc2 => h c2 (List.mem_cons_of_mem c hc2))]

theorem splitDots_joinDots : ∀ gs : List (List Char), gs ≠ [] →
    (∀ g ∈ gs, ∀ c ∈ g, c ≠ '.') → splitDots (joinDots gs) = gs := by
  intro gs
  induction gs with
  | nil => intro h; exact absurd rfl h
  | cons g gs2 ih =>
    intro _ hdf
    cases gs2 with
    | nil => exact splitDots_dotFree g (hdf g (by simp))
    | cons g2 gs3 =>
      rw [joinDots_cons₂ g (g2 :: gs3) (by simp)]
      rw [splitDots_append_dot g _ (hdf g (by simp))]
      rw [ih (by simp) (fun g4 hg4 => hdf g4 (List.mem_cons_of_mem g hg4))]

theorem joinDots_append_single (gs : List (List Char)) (g2 : List Char) (h : gs ≠ []) :
    joinDots (gs ++ [g2]) = joinDots gs ++ '.' :: g2 := by
  induction gs with
  | nil => exact absurd rfl h
  | cons g gs3 ih =>
    cases gs3 with
    | nil => rfl
    | cons g4 gs4 =>
      rw [List.cons_append, joinDots_cons₂ g ((g4 :: gs4) ++ [g2]) (by simp),
        joinDots_cons₂ g (g4 :: gs4) (by simp), ih (by simp)]
      simp

theorem string_mk_append (a b : List Char) : String.mk a ++ String.mk b = String.mk (a ++ b) :=
  rfl

theorem padZero_join : ∀ (k : Nat) (gs : List (List Char)), gs ≠ [] →
    (padZeroComponents k (String.mk (joinDots gs))).toList =
      joinDots (gs ++ List.replicate k ['0']) := by
  intro k
  induction k with
  | zero => intro gs _; simp [padZeroComponents, String.toList]
  | succ k2 ih =>
    intro gs hne
    show (padZeroComponents k2 (String.mk (joinDots gs) ++ ".0")).toList = _
    have h1 : String.mk (joinDots gs) ++ ".0" = String.mk (joinDots (gs ++ [['0']])) := by
      rw [joinDots_append_single gs ['0'] hne]
      rfl
    rw [h1, ih (gs ++ [['0']]) (by simp)]
    congr 1
    simp [List.replicate_succ]

/-- C3 counterexample: a one-component version string such as `"1"` contains
no `.digit` occurrence, so `version.match(/\.\d/g)` is `null` and the setter
stores it unchanged with one component, not four. -/
theorem setVersion_single_component_unpadded :
    Identity.setVersion "1" = Except.ok "1" ∧ (splitDots ("1").toList).length ≠ 4 := by
  constructor
  · rfl
  · decide

/-- C3, amended: the identity version setter pads a dotted numeric version
with 2 or 3 components to exactly four components by appending `.0`
(in particular `"1.2"` becomes `"1.2.0.0"`), but stores a 1-component
version string unchanged. -/
theorem setVersion_pads_two_or_three_components :
    (∀ gs : List (List Char), (∀ g ∈ gs, g ≠ [] ∧ ∀ c ∈ g, c.isDigit = true) →
      (gs.length = 2 ∨ gs.length = 3) →
      ∃ r, Identity.setVersion (String.mk (joinDots gs)) = Except.ok r ∧
        (splitDots r.toList).length = 4) ∧
    (∀ g : List Char, g ≠ [] → (∀ c ∈ g, c.isDigit = true) →
      Identity.setVersion (String.mk g) = Except.ok (String.mk g)) ∧
    Identity.setVersion "1.2" = Except.ok "1.2.0.0" := by
  refine ⟨?_, ?_, ?_⟩
  · intro gs hwf hlen
    have hne : gs ≠ [] := by
      intro hcon
      rw [hcon] at hlen
      simp at hlen
    have hm := countDotDigit_joinDots gs hne hwf
    have hjoin_ne : joinDots gs ≠ [] := by
      rcases gs with _ | ⟨g, gs2⟩
      · exact absurd rfl hne
      · have hg := (hwf g (by simp)).1
        cases gs2 with
        | nil => simpa [joinDots] using hg
        | cons g2 gs3 =>
          rw [joinDots_cons₂ g (g2 :: gs3) (by simp)]
          rcases hd : g with _ | ⟨c, cs⟩
          · exact absurd hd.symm (hd ▸ hg)
          · simp
    unfold Identity.setVersion
    rw [if_neg (by
      intro hcon
      exact hjoin_ne (by simpa using congrArg String.toList hcon))]
    have hm0 : countDotDigit (String.mk (joinDots gs)).toList ≠ 0 := by
      show countDotDigit (joinDots gs) ≠ 0
      omega
    rw [if_neg (by simpa using hm0)]
    refine ⟨_, rfl, ?_⟩
    show (splitDots (padZeroComponents (3 - countDotDigit
      (String.mk (joinDots gs)).toList) (String.mk (joinDots gs))).toList).length = 4
    have hmval : countDotDigit (String.mk (joinDots gs)).toList = countDotDigit (joinDots gs) :=
      rfl
    rw [hmval, padZero_join _ gs hne, splitDots_joinDots _ (by simp [hne]) ?_]
    · simp only [List.length_append, List.length_replicate]
      omega
    · intro g hg c hc
      rcases List.mem_append.mp hg with h1 | h2
      · exact digit_ne_dot ((hwf g h1).2 c hc)
      · rw [List.eq_of_mem_replicate h2] at hc
        rw [List.mem_singleton.mp hc]
        decide
  · intro g hne hdig
    unfold Identity.setVersion
    rw [if_neg (by
      intro hcon
      exact hne (by simpa using congrArg String.toList hcon))]
    have h0 : countDotDigit (String.mk g).toList = 0 := by
      show countDotDigit g = 0
      have := countDotDigit_digits_first g [] (fun c hc => digit_ne_dot (hdig c hc))
      simpa using this
    rw [if_pos h0]
  · rfl

theorem setVersion_pads_witness :
    ∃ r, Identity.setVersion (String.mk (joinDots [['1'], ['2']])) = Except.ok r ∧
      (splitDots r.toList).length = 4 :=
  setVersion_pads_two_or_three_components.1 [['1'], ['2']] (by decide) (Or.inl rfl)

theorem processChangesLoop_eq_map {α : Type} (changes : List (Change α)) :
    processChangesLoop changes = changes.map
      (fun c => if c.target = "package.appxmanifest" then demuxChangeWithSubsts c else c) := by
  unfold processChangesLoop
  suffices h : ∀ acc : List (Change α), changes.foldl
      (fun changes change =>
        if change.target ≠ "package.appxmanifest" then changes ++ [change]
        else changes ++ [demuxChangeWithSubsts change]) acc =
      acc ++ changes.map
        (fun c => if c.target = "package.appxmanifest" then demuxChangeWithSubsts c else c) by
    simpa using h []
  induction changes with
  | nil => intro acc; simp
  | cons c cs ih =>
    intro acc
    simp only [List.foldl_cons, List.map_cons]
    by_cases hc : c.target = "package.appxmanifest"
    · rw [if_neg (by simpa using hc), if_pos hc, ih]
      simp
    · rw [if_pos (by simpa using hc), if_neg hc, ih]
      simp

/-- C5: `processChanges` returns the input itself when no instruction targets
the generic `package.appxmanifest`; otherwise each generic-target instruction
is replaced in place (input order preserved by the map) with the
`package.windows10.appxmanifest`-target equivalent, whose payload fields are
carried over unchanged. -/
theorem processChanges_spec (α : Type) (changes : List (Change α)) :
    ((∀ c ∈ changes, c.target ≠ "package.appxmanifest") → processChanges changes = changes) ∧
    ((∃ c ∈ changes, c.target = "package.appxmanifest") →
      processChanges changes = changes.map
        (fun c => if c.target = "package.appxmanifest" then demuxChangeWithSubsts c else c)) ∧
    (∀ c : Change α, (demuxChangeWithSubsts c).target = MANIFEST ∧
      (demuxChangeWithSubsts c).parent = c.parent ∧
      (demuxChangeWithSubsts c).after = c.after ∧
      (demuxChangeWithSubsts c).xmls = c.xmls ∧
      (demuxChangeWithSubsts c).versions = c.versions ∧
      (demuxChangeWithSubsts c).deviceTarget = c.deviceTarget) := by
  refine ⟨?_, ?_, ?_⟩
  · intro h
    unfold processChanges
    rw [if_neg]
    rw [List.any_eq_true]
    rintro ⟨c, hc, ht⟩
    exact h c hc (by simpa using ht)
  · intro h
    unfold processChanges
    rw [if_pos (by
      rw [List.any_eq_true]
      obtain ⟨c, hc, ht⟩ := h
      exact ⟨c, hc, by simpa using ht⟩)]
    exact processChangesLoop_eq_map changes
  · intro c
    exact ⟨rfl, rfl, rfl, rfl, rfl, rfl⟩

def changeGeneric : Change Nat := Change.mk "package.appxmanifest" 1 2 3 4 5

def changeOther : Change Nat := Change.mk "config.xml" 6 7 8 9 10

theorem processChanges_spec_witness :
    processChanges [changeOther, changeGeneric] =
      [changeOther, demuxChangeWithSubsts changeGeneric] := by
  rw [(processChanges_spec Nat [changeOther, changeGeneric]).2.1
    ⟨changeGeneric, by simp, rfl⟩]
  decide

/-- C6: a non-cached `get` (bypassing or missing the cache) on a manifest
file whose root lacks the `xmlns:uap` namespace-declaration attribute throws
the version-unsupported error and never builds a manifest instance. -/
theorem get_requires_uap_namespace (env : String → Option XDoc) (fileName : String)
    (s : CacheState) (doc : XDoc) (ignoreCache : Bool)
    (henv : env fileName = some doc)
    (hns : (doc.root.attrib.map Prod.fst).contains "xmlns:uap" = false)
    (hnc : ignoreCache = true ∨ lookupCache s.cache fileName = none) :
    AppxManifest.get env fileName ignoreCache s =
      Except.error "Windows 10 is only supported" := by
  have hcase : (if ignoreCache then none else lookupCache s.cache fileName) = none := by
    rcases hnc with h | h
    · simp [h]
    · cases ignoreCache <;> simp [h]
  unfold AppxManifest.get
  rw [hcase, henv]
  simp only [hns]
  simp

def docNoUapNs : XDoc := XDoc.mk (XElem.mk "Package" [("xmlns", "winns")] [])

def envNoUapNs : String → Option XDoc := fun _ => some docNoUapNs

theorem get_requires_uap_namespace_witness :
    AppxManifest.get envNoUapNs "package.appxmanifest.xml" false initState =
      Except.error "Windows 10 is only supported" :=
  get_requires_uap_namespace envNoUapNs "package.appxmanifest.xml" initState docNoUapNs false
    rfl (by decide) (Or.inr rfl)

/-- C10: the application start-page setter never raises on an empty or
missing value; it stores the default `www/index.html` and hands the view
back for chaining. -/
theorem setStartPage_defaults (application : XElem) :
    Application.setStartPage none application =
        Except.ok (XElem.mk application.tag
          (setAttr application.attrib "StartPage" "www/index.html") application.children,
          JsRet.self) ∧
      Application.setStartPage (some "") application =
        Except.ok (XElem.mk application.tag
          (setAttr application.attrib "StartPage" "www/index.html") application.children,
          JsRet.self) :=
  ⟨rfl, rfl⟩

theorem findDeps_updateFirst (f : XElem → XElem) (hf : ∀ e, (f e).tag = e.tag)
    (l : List XElem) :
    findDependenciesChild (updateFirstDependencies f l) = (findDependenciesChild l).map f := by
  induction l with
  | nil => rfl
  | cons e rest ih =>
    simp only [updateFirstDependencies]
    by_cases he : e.tag = "Dependencies"
    · rw [if_pos he]
      unfold findDependenciesChild
      rw [List.find?_cons_of_pos _ (by simp [hf e, he]),
        List.find?_cons_of_pos _ (by simp [he])]
      rfl
    · rw [if_neg he]
      unfold findDependenciesChild
      rw [List.find?_cons_of_neg _ (by simp [he]), List.find?_cons_of_neg _ (by simp [he])]
      exact ih

theorem tag_clearElement (e : XElem) : (clearElement e).tag = e.tag := by
  unfold clearElement
  split <;> rfl

/-- C9, amended: with an existing `Dependencies` element and a non-empty
dependency list, `setDependencies` clears the element and appends one
`TargetDeviceFamily` child per entry, and the call evaluates to `undefined`,
so it cannot be chained; with no or an empty list and an existing element it
throws a TypeError at `this.doc.remove` (elementtree's `ElementTree` has no
`remove` method) instead of removing the element and returning the manifest
instance; and when no `Dependencies` element exists, every call throws a
TypeError at `this.doc.append`. -/
theorem setDependencies_spec :
    (∀ (doc : XDoc) (ds : List (List (String × String))), ds ≠ [] →
      (findDependenciesChild doc.root.children).isSome = true →
      ∃ doc2, setDependencies (some ds) doc = (doc2, Except.ok JsRet.undef) ∧
        ∃ a, findDependenciesChild doc2.root.children =
          some (XElem.mk "Dependencies" a (ds.map mkTargetDeviceFamily))) ∧
    (∀ (doc : XDoc) (deps : Option (List (List (String × String)))),
      depsFalsyOrEmpty deps = true →
      (findDependenciesChild doc.root.children).isSome = true →
      setDependencies deps doc =
        (doc, Except.error "TypeError: this.doc.remove is not a function")) ∧
    (∀ (doc : XDoc) (deps : Option (List (List (String × String)))),
      findDependenciesChild doc.root.children = none →
      setDependencies deps doc =
        (doc, Except.error "TypeError: this.doc.append is not a function")) := by
  refine ⟨?_, ?_, ?_⟩
  · intro doc ds hds hsome
    have hfalsy : depsFalsyOrEmpty (some ds) = false := by
      rcases ds with _ | ⟨d, ds2⟩
      · exact absurd rfl hds
      · rfl
    rcases hfind : findDependenciesChild doc.root.children with _ | e
    · rw [hfind] at hsome
      exact absurd hsome (by simp)
    · unfold setDependencies
      rw [if_neg (by simp [hfalsy])]
      simp only [hfind]
      refine ⟨_, rfl, ?_⟩
      rw [children_setChildren]
      rw [findDeps_updateFirst _ (fun e2 => tag_setChildren e2 _),
        findDeps_updateFirst _ tag_clearElement, hfind]
      have htag : e.tag = "Dependencies" := by
        have := List.find?_some hfind
        simpa using this
      rcases e with ⟨t, a, c⟩
      simp only [XElem.tag] at htag
      subst htag
      by_cases hc : c.length > 0
      · refine ⟨[], ?_⟩
        simp [clearElement, XElem.children, XElem.setChildren, XElem.tag, hc, Option.map]
      · have hcnil : c = [] := by
          rcases c with _ | ⟨x, xs⟩
          · rfl
          · simp at hc
        subst hcnil
        refine ⟨a, ?_⟩
        simp [clearElement, XElem.children, XElem.setChildren, XElem.tag, Option.map]
  · intro doc deps hfalsy hsome
    unfold setDependencies
    rw [if_pos (by simp [hfalsy, hsome])]
  · intro doc deps hnone
    unfold setDependencies
    rw [if_neg (by simp [hnone])]
    simp only [hnone]

/-- A document whose root has no `Dependencies` element. -/
def docNoDeps : XDoc := XDoc.mk (XElem.mk "Package" [("xmlns:uap", "u")] [])

/-- A document whose root holds one `Dependencies` element. -/
def docWithDeps : XDoc :=
  XDoc.mk (XElem.mk "Package" [("xmlns:uap", "u")]
    [XElem.mk "Dependencies" []
      [XElem.mk "TargetDeviceFamily" [("Name", "Windows.Universal")] []]])

/-- C9 counterexample: calling `setDependencies` with an empty list on a
document that does hold a `Dependencies` element reaches
`this.doc.remove(dependenciesElement)`, and elementtree's `ElementTree` has
no `remove` method, so the call throws a TypeError — it neither removes the
element nor returns the manifest instance as the claim states. -/
theorem setDependencies_empty_throws_not_self :
    (setDependencies (some []) docWithDeps).2 ≠ Except.ok JsRet.self := by
  intro h
  have heval : (setDependencies (some []) docWithDeps).2 =
      Except.error "TypeError: this.doc.remove is not a function" := rfl
  rw [heval] at h
  exact Except.noConfusion h

theorem setDependencies_spec_witness :
    (∃ doc2, setDependencies (some [[("Name", "Windows.Universal")]]) docWithDeps =
        (doc2, Except.ok JsRet.undef) ∧
      ∃ a, findDependenciesChild doc2.root.children =
        some (XElem.mk "Dependencies" a
          ([[("Name", "Windows.Universal")]].map mkTargetDeviceFamily))) ∧
    setDependencies none docWithDeps =
      (docWithDeps, Except.error "TypeError: this.doc.remove is not a function") ∧
    setDependencies (some [[("Name", "Windows.Universal")]]) docNoDeps =
      (docNoDeps, Except.error "TypeError: this.doc.append is not a function") :=
  ⟨setDependencies_spec.1 docWithDeps [[("Name", "Windows.Universal")]] (by simp) (by decide),
   setDependencies_spec.2.1 docWithDeps none rfl (by decide),
   setDependencies_spec.2.2 docNoDeps (some [[("Name", "Windows.Universal")]]) rfl⟩

/-- Cache ids are always below the allocation counter. -/
def CacheInv (s : CacheState) : Prop := ∀ p ∈ s.cache, p.2 < s.nextId

theorem get_ok_cases {env : String → Option XDoc} {fileName : String} {ignoreCache : Bool}
    {s : CacheState} {i : Nat} {s2 : CacheState}
    (h : AppxManifest.get env fileName ignoreCache s = Except.ok (i, s2)) :
    (ignoreCache = false ∧ lookupCache s.cache fileName = some i ∧ s2 = s) ∨
    ((ignoreCache = true ∨ lookupCache s.cache fileName = none) ∧
      i = s.nextId ∧ s2.nextId = s.nextId + 1 ∧ s2.parses = s.parses + 2 ∧
      s2.cache = (if ignoreCache then s.cache else (fileName, s.nextId) :: s.cache)) := by
  unfold AppxManifest.get at h
  rcases hcase : (if ignoreCache then none else lookupCache s.cache fileName) with _ | cached
  · rw [hcase] at h
    simp only [] at h
    rcases henv : env fileName with _ | doc
    · rw [henv] at h
      exact absurd h (by simp)
    · rw [henv] at h
      simp only [] at h
      by_cases hns : ((doc.root.attrib.map Prod.fst).contains "xmlns:uap") = true
      · rw [if_pos hns] at h
        by_cases htag : doc.root.tag = "Package"
        · rw [if_pos htag] at h
          right
          have h2 := Except.ok.inj h
          refine ⟨?_, congrArg Prod.fst h2.symm, ?_, ?_, ?_⟩
          · cases hic : ignoreCache
            · right
              rw [hic] at hcase
              simpa using hcase
            · exact Or.inl rfl
          all_goals
            rw [show s2 = CacheState.mk
              (if ignoreCache then s.cache else (fileName, s.nextId) :: s.cache)
              (s.nextId + 1) (s.parses + 2) from congrArg Prod.snd h2.symm]
        · rw [if_neg htag] at h
          exact absurd h (by simp)
      · rw [if_neg hns] at h
        exact absurd h (by simp)
  · rw [hcase] at h
    simp only [] at h
    left
    have h2 := Except.ok.inj h
    have hic : ignoreCache = false := by
      cases hic2 : ignoreCache
      · rfl
      · rw [hic2] at hcase
        simp at hcase
    rw [hic] at hcase
    simp at hcase
    have hcc : cached = i := congrArg Prod.fst h2
    have hss : s = s2 := congrArg Prod.snd h2
    refine ⟨hic, ?_, hss.symm⟩
    rw [← hcc]
    exact hcase

theorem lookupCache_cons_self (c : List (String × Nat)) (fileName : String) (n : Nat) :
    lookupCache ((fileName, n) :: c) fileName = some n := by
  simp [lookupCache]

theorem get_preserves_lookup {env : String → Option XDoc} {f2 : String} {ic : Bool}
    {s : CacheState} {i : Nat} {s2 : CacheState} {fileName : String} {j : Nat}
    (h : AppxManifest.get env f2 ic s = Except.ok (i, s2))
    (hl : lookupCache s.cache fileName = some j) :
    lookupCache s2.cache fileName = some j := by
  rcases get_ok_cases h with ⟨_, _, rfl⟩ | ⟨hmiss, _, _, _, hc⟩
  · exact hl
  · rw [hc]
    cases hic : ic
    · rw [if_neg (by simp)]
      rcases hmiss with h1 | h1
      · rw [hic] at h1
        exact absurd h1 (by simp)
      · have hne : f2 ≠ fileName := by
          intro hcon
          rw [hcon] at h1
          rw [h1] at hl
          exact absurd hl (by simp)
        simp only [lookupCache, List.find?]
        rw [show (decide ((f2, s.nextId).1 = fileName)) = false by simp [hne]]
        exact hl
    · rw [if_pos rfl]
      exact hl

theorem stepOp_preserves_lookup {env : String → Option XDoc} {s : CacheState} {op : Op}
    (hnp : op.isPurge = false) {fileName : String} {j : Nat}
    (hl : lookupCache s.cache fileName = some j) :
    lookupCache (stepOp env s op).2.cache fileName = some j := by
  rcases op with ⟨f2, ic⟩ | keys
  · simp only [stepOp]
    rcases hstep : AppxManifest.get env f2 ic s with e | ⟨i, s2⟩
    · exact hl
    · exact get_preserves_lookup hstep hl
  · exact absurd hnp (by simp [Op.isPurge])

theorem runOps_preserves_lookup (env : String → Option XDoc) :
    ∀ (ops : List Op), (∀ op ∈ ops, op.isPurge = false) →
    ∀ (s : CacheState) (fileName : String) (j : Nat),
      lookupCache s.cache fileName = some j →
      lookupCache (runOps env s ops).2.cache fileName = some j := by
  intro ops
  induction ops with
  | nil => intro _ s fileName j hl; exact hl
  | cons op ops2 ih =>
    intro hnp s fileName j hl
    simp only [runOps]
    exact ih (fun op2 h2 => hnp op2 (List.mem_cons_of_mem op h2)) _ _ _
      (stepOp_preserves_lookup (hnp op (List.mem_cons_self op ops2)) hl)

theorem get_lookup_after {env : String → Option XDoc} {fileName : String}
    {s : CacheState} {i : Nat} {s2 : CacheState}
    (h : AppxManifest.get env fileName false s = Except.ok (i, s2)) :
    lookupCache s2.cache fileName = some i := by
  rcases get_ok_cases h with ⟨_, hl, rfl⟩ | ⟨_, hi, _, _, hc⟩
  · exact hl
  · rw [hc, if_neg (by simp), hi]
    exact lookupCache_cons_self _ _ _

theorem get_of_cached {env : String → Option XDoc} {fileName : String}
    {s : CacheState} {i : Nat} (hl : lookupCache s.cache fileName = some i) :
    AppxManifest.get env fileName false s = Except.ok (i, s) := by
  unfold AppxManifest.get
  rw [show (if false then none else lookupCache s.cache fileName) = some i by simpa using hl]

theorem purgeCache_nextId (keys : Option (List String)) (s : CacheState) :
    (AppxManifest.purgeCache keys s).nextId = s.nextId := by
  cases keys <;> rfl

theorem get_ok_inv {env : String → Option XDoc} {fileName : String} {ic : Bool}
    {s : CacheState} {i : Nat} {s2 : CacheState}
    (hinv : CacheInv s) (h : AppxManifest.get env fileName ic s = Except.ok (i, s2)) :
    CacheInv s2 ∧ s.nextId ≤ s2.nextId ∧ i < s2.nextId := by
  rcases get_ok_cases h with ⟨_, hl, hs⟩ | ⟨_, hi, hn, _, hc⟩
  · rw [hs]
    refine ⟨hinv, le_refl _, ?_⟩
    rcases hfound : List.find? (fun p => p.1 = fileName) s.cache with _ | p
    · rw [show lookupCache s.cache fileName = none by simp [lookupCache, hfound]] at hl
      exact absurd hl (by simp)
    · have hmem := List.mem_of_find?_eq_some hfound
      have hplt := hinv p hmem
      rw [show lookupCache s.cache fileName = some p.2 by simp [lookupCache, hfound]] at hl
      have : p.2 = i := by simpa using hl
      omega
  · subst hi
    refine ⟨?_, by omega, by omega⟩
    intro p hp
    rw [hc] at hp
    rw [hn]
    cases ic
    · rw [if_neg (by simp)] at hp
      rcases List.mem_cons.mp hp with rfl | hp2
      · simp
      · have := hinv p hp2
        omega
    · rw [if_pos rfl] at hp
      have := hinv p hp
      omega

theorem stepOp_get_ok {env : String → Option XDoc} {s : CacheState} {f2 : String}
    {ic : Bool} {i : Nat} {s2 : CacheState}
    (h : AppxManifest.get env f2 ic s = Except.ok (i, s2)) :
    stepOp env s (Op.opGet f2 ic) = (some i, s2) := by
  simp [stepOp, h]

theorem stepOp_get_err {env : String → Option XDoc} {s : CacheState} {f2 : String}
    {ic : Bool} {e : String}
    (h : AppxManifest.get env f2 ic s = Except.error e) :
    stepOp env s (Op.opGet f2 ic) = (none, s) := by
  simp [stepOp, h]

theorem stepOp_purge (env : String → Option XDoc) (s : CacheState)
    (keys : Option (List String)) :
    stepOp env s (Op.opPurge keys) = (none, AppxManifest.purgeCache keys s) := rfl

theorem purgeCache_inv {s : CacheState} (keys : Option (List String)) (hinv : CacheInv s) :
    CacheInv (AppxManifest.purgeCache keys s) := by
  intro p hp
  rw [purgeCache_nextId]
  rcases keys with _ | ks
  · simp [AppxManifest.purgeCache] at hp
  · simp only [AppxManifest.purgeCache] at hp
    exact hinv p (List.mem_of_mem_filter hp)

theorem stepOp_inv {env : String → Option XDoc} {s : CacheState} (op : Op)
    (hinv : CacheInv s) :
    CacheInv (stepOp env s op).2 ∧ s.nextId ≤ (stepOp env s op).2.nextId ∧
      (∀ i, (stepOp env s op).1 = some i → i < (stepOp env s op).2.nextId) := by
  rcases op with ⟨f2, ic⟩ | keys
  · rcases hstep : AppxManifest.get env f2 ic s with e | ⟨i, s2⟩
    · rw [stepOp_get_err hstep]
      exact ⟨hinv, le_refl _, by simp⟩
    · rw [stepOp_get_ok hstep]
      obtain ⟨h1, h2, h3⟩ := get_ok_inv hinv hstep
      refine ⟨h1, h2, ?_⟩
      intro j hj
      have : i = j := by simpa using hj
      rw [← this]
      exact h3
  · rw [stepOp_purge]
    refine ⟨purgeCache_inv keys hinv, by rw [purgeCache_nextId], by simp⟩

theorem runOps_inv (env : String → Option XDoc) :
    ∀ (ops : List Op) (s : CacheState), CacheInv s →
      CacheInv (runOps env s ops).2 ∧ s.nextId ≤ (runOps env s ops).2.nextId := by
  intro ops
  induction ops with
  | nil => intro s hinv; exact ⟨hinv, le_refl _⟩
  | cons op ops2 ih =>
    intro s hinv
    simp only [runOps]
    obtain ⟨h1, h2, _⟩ := @stepOp_inv env _ op hinv
    obtain ⟨h3, h4⟩ := ih _ h1
    exact ⟨h3, le_trans h2 h4⟩

theorem runOps_results_lt (env : String → Option XDoc) :
    ∀ (ops : List Op) (s : CacheState), CacheInv s →
      ∀ r ∈ (runOps env s ops).1, ∀ i, r = some i → i < (runOps env s ops).2.nextId := by
  intro ops
  induction ops with
  | nil => intro s _ r hr; simp [runOps] at hr
  | cons op ops2 ih =>
    intro s hinv r hr i hi
    simp only [runOps] at hr ⊢
    obtain ⟨h1, h2, h3⟩ := @stepOp_inv env _ op hinv
    rcases List.mem_cons.mp hr with rfl | hr2
    · have hlt := h3 i hi
      have hmono := (runOps_inv env ops2 (stepOp env s op).2 h1).2
      omega
    · exact ih _ h1 r hr2 i hi

theorem runOps_avoids (env : String → Option XDoc) (n : Nat) :
    ∀ (ops : List Op) (s : CacheState), CacheInv s → n < s.nextId →
      (∀ p ∈ s.cache, p.2 ≠ n) →
      ∀ r ∈ (runOps env s ops).1, r ≠ some n := by
  intro ops
  induction ops with
  | nil => intro s _ _ _ r hr; simp [runOps] at hr
  | cons op ops2 ih =>
    intro s hinv hlt hni r hr
    simp only [runOps] at hr
    have hstep : (stepOp env s op).1 ≠ some n ∧ CacheInv (stepOp env s op).2 ∧
        n < (stepOp env s op).2.nextId ∧ (∀ p ∈ (stepOp env s op).2.cache, p.2 ≠ n) := by
      rcases op with ⟨f2, ic⟩ | keys
      · rcases hg : AppxManifest.get env f2 ic s with e | ⟨i, s2⟩
        · rw [stepOp_get_err hg]
          exact ⟨by simp, hinv, hlt, hni⟩
        · rw [stepOp_get_ok hg]
          obtain ⟨hinv2, hmono, _⟩ := get_ok_inv hinv hg
          refine ⟨?_, hinv2, ?_, ?_⟩
          · intro hcon
            have hieq : i = n := by simpa using hcon
            rcases get_ok_cases hg with ⟨_, hl, hs⟩ | ⟨_, hi, _, _, _⟩
            · rcases hfound : List.find? (fun p => p.1 = f2) s.cache with _ | p
              · rw [show lookupCache s.cache f2 = none by simp [lookupCache, hfound]] at hl
                exact absurd hl (by simp)
              · rw [show lookupCache s.cache f2 = some p.2 by simp [lookupCache, hfound]] at hl
                have hpmem := List.mem_of_find?_eq_some hfound
                have hne := hni p hpmem
                have : p.2 = i := by simpa using hl
                omega
            · omega
          · show n < s2.nextId
            omega
          · intro p hp
            have hp2 : p ∈ s2.cache := hp
            rcases get_ok_cases hg with ⟨_, _, hs⟩ | ⟨_, _, _, _, hc⟩
            · rw [hs] at hp2
              exact hni p hp2
            · rw [hc] at hp2
              cases ic
              · rw [if_neg (by simp)] at hp2
                rcases List.mem_cons.mp hp2 with hpe | hp3
                · rw [hpe]
                  simp
                  omega
                · exact hni p hp3
              · rw [if_pos rfl] at hp2
                exact hni p hp2
      · rw [stepOp_purge]
        refine ⟨by simp, purgeCache_inv keys hinv, by rw [purgeCache_nextId]; exact hlt, ?_⟩
        intro p hp
        rcases keys with _ | ks
        · simp [AppxManifest.purgeCache] at hp
        · simp only [AppxManifest.purgeCache] at hp
          exact hni p (List.mem_of_mem_filter hp)
    rcases List.mem_cons.mp hr with rfl | hr2
    · exact hstep.1
    · exact ih _ hstep.2.1 hstep.2.2.1 hstep.2.2.2 r hr2

theorem runOps_append (env : String → Option XDoc) :
    ∀ (as bs : List Op) (s : CacheState),
      runOps env s (as ++ bs) =
        ((runOps env s as).1 ++ (runOps env (runOps env s as).2 bs).1,
          (runOps env (runOps env s as).2 bs).2) := by
  intro as
  induction as with
  | nil => intro bs s; simp [runOps]
  | cons op as2 ih =>
    intro bs s
    show runOps env s (op :: (as2 ++ bs)) = _
    simp only [runOps]
    rw [ih bs (stepOp env s op).2]
    rfl

theorem runOps_length (env : String → Option XDoc) :
    ∀ (ops : List Op) (s : CacheState), (runOps env s ops).1.length = ops.length := by
  intro ops
  induction ops with
  | nil => intro s; rfl
  | cons op ops2 ih =>
    intro s
    simp only [runOps, List.length_cons]
    rw [ih]

/-- C4: consecutive default `get` calls on one path (any purge-free calls in
between) return the same instance; a bypass (`ignoreCache`) call returns a
freshly allocated instance, stores nothing, and its instance id differs from
the result of every other `get` in the whole trace; `purgeCache()` with no
argument empties the cache, and the next default `get` goes down the parse
path (two `parseElementtreeSync` calls) instead of the cache. -/
theorem appxManifest_cache_spec :
    (∀ (env : String → Option XDoc) (fileName : String) (s : CacheState) (i : Nat)
        (s2 : CacheState) (ops : List Op), (∀ op ∈ ops, op.isPurge = false) →
      AppxManifest.get env fileName false s = Except.ok (i, s2) →
      AppxManifest.get env fileName false (runOps env s2 ops).2 =
        Except.ok (i, (runOps env s2 ops).2)) ∧
    (∀ (env : String → Option XDoc) (fileName : String) (s : CacheState) (i : Nat)
        (s2 : CacheState), AppxManifest.get env fileName true s = Except.ok (i, s2) →
      i = s.nextId ∧ s2.cache = s.cache ∧ s2.nextId = s.nextId + 1) ∧
    (∀ (env : String → Option XDoc) (fileName : String) (ops1 ops2 : List Op)
        (n m k : Nat),
      (runOps env initState (ops1 ++ Op.opGet fileName true :: ops2)).1.get? ops1.length =
        some (some n) →
      k ≠ ops1.length →
      (runOps env initState (ops1 ++ Op.opGet fileName true :: ops2)).1.get? k =
        some (some m) →
      m ≠ n) ∧
    (∀ s : CacheState, (AppxManifest.purgeCache none s).cache = []) ∧
    (∀ (env : String → Option XDoc) (fileName : String) (s : CacheState) (doc : XDoc),
      env fileName = some doc →
      (doc.root.attrib.map Prod.fst).contains "xmlns:uap" = true →
      doc.root.tag = "Package" →
      AppxManifest.get env fileName false (AppxManifest.purgeCache none s) =
        Except.ok (s.nextId,
          CacheState.mk [(fileName, s.nextId)] (s.nextId + 1) (s.parses + 2))) := by
  refine ⟨?_, ?_, ?_, ?_, ?_⟩
  · intro env fileName s i s2 ops hnp h
    exact get_of_cached (runOps_preserves_lookup env ops hnp s2 fileName i (get_lookup_after h))
  · intro env fileName s i s2 h
    rcases get_ok_cases h with ⟨hic, _, _⟩ | ⟨_, hi, hn, _, hc⟩
    · exact absurd hic (by simp)
    · rw [if_pos rfl] at hc
      exact ⟨hi, hc, hn⟩
  · intro env fileName ops1 ops2 n m k hbyp hk hm
    have hinv0 : CacheInv initState := by
      intro p hp
      simp [initState] at hp
    have hsplit := runOps_append env ops1 (Op.opGet fileName true :: ops2) initState
    have hlen := runOps_length env ops1 initState
    set s1 := (runOps env initState ops1).2 with hs1
    have hinv1 : CacheInv s1 := (runOps_inv env ops1 initState hinv0).1
    rw [hsplit] at hbyp hm
    simp only [runOps] at hbyp hm
    have hx : (stepOp env s1 (Op.opGet fileName true)).1 = some n := by
      rw [List.get?_append_right (by omega)] at hbyp
      rw [hlen, Nat.sub_self] at hbyp
      simpa using hbyp
    rcases hg : AppxManifest.get env fileName true s1 with e | ⟨j, s2b⟩
    · rw [stepOp_get_err hg] at hx
      exact absurd hx (by simp)
    · rw [stepOp_get_ok hg] at hx hm
      have hjn : j = n := by simpa using hx
      rcases get_ok_cases hg with ⟨hic, _, _⟩ | ⟨_, hj, hnext, _, hc⟩
      · exact absurd hic (by simp)
      · rw [if_pos rfl] at hc
        rcases Nat.lt_or_ge k ops1.length with hlt | hge
        · rw [List.get?_append (by omega)] at hm
          have hmem := List.get?_mem hm
          have hreslt := runOps_results_lt env ops1 initState hinv0 _ hmem m rfl
          rw [← hs1] at hreslt
          omega
        · have hge2 : ops1.length + 1 ≤ k := by omega
          rw [List.get?_append_right (by omega)] at hm
          rw [hlen] at hm
          have hsub : k - ops1.length = (k - ops1.length - 1) + 1 := by omega
          rw [hsub] at hm
          have hmem : some m ∈ (runOps env s2b ops2).1 := List.get?_mem (by simpa using hm)
          have hinv2 : CacheInv s2b := (get_ok_inv hinv1 hg).1
          have havoid := runOps_avoids env n ops2 s2b hinv2 (by omega) ?_ (some m) hmem
          · intro hcon
            exact havoid (by rw [hcon])
          · intro p hp
            rw [hc] at hp
            have := hinv1 p hp
            omega
  · intro s
    rfl
  · intro env fileName s doc henv hns htag
    unfold AppxManifest.get
    rw [show (if false then none
        else lookupCache (AppxManifest.purgeCache none s).cache fileName) = none by
      simp [AppxManifest.purgeCache, lookupCache]]
    rw [henv]
    simp only [hns, htag]
    simp [AppxManifest.purgeCache]

def docOkUap : XDoc := XDoc.mk (XElem.mk "Package" [("xmlns:uap", "u")] [])

def envOk : String → Option XDoc := fun _ => some docOkUap

theorem appxManifest_cache_spec_witness :
    (AppxManifest.get envOk "f" false
        (runOps envOk (CacheState.mk [("f", 0)] 1 2) [Op.opGet "a" false]).2 =
      Except.ok (0, (runOps envOk (CacheState.mk [("f", 0)] 1 2) [Op.opGet "a" false]).2)) ∧
    (1 = (CacheState.mk [("f", 0)] 1 2).nextId ∧
      (CacheState.mk [("f", 0)] 2 4).cache = (CacheState.mk [("f", 0)] 1 2).cache ∧
      (CacheState.mk [("f", 0)] 2 4).nextId = (CacheState.mk [("f", 0)] 1 2).nextId + 1) ∧
    (0 ≠ 1) ∧
    ((AppxManifest.purgeCache none (CacheState.mk [("f", 0)] 1 2)).cache = []) ∧
    (AppxManifest.get envOk "f" false
        (AppxManifest.purgeCache none (CacheState.mk [("f", 0)] 1 2)) =
      Except.ok (1, CacheState.mk [("f", 1)] 2 4)) :=
  ⟨appxManifest_cache_spec.1 envOk "f" initState 0 (CacheState.mk [("f", 0)] 1 2)
      [Op.opGet "a" false] (by decide) rfl,
   appxManifest_cache_spec.2.1 envOk "g" (CacheState.mk [("f", 0)] 1 2) 1
      (CacheState.mk [("f", 0)] 2 4) rfl,
   appxManifest_cache_spec.2.2.1 envOk "f" [Op.opGet "f" false] [] 1 0 0 rfl
      (by decide) rfl,
   appxManifest_cache_spec.2.2.2.1 (CacheState.mk [("f", 0)] 1 2),
   appxManifest_cache_spec.2.2.2.2 envOk "f" (CacheState.mk [("f", 0)] 1 2) docOkUap
      rfl rfl rfl⟩
